import Mathlib

/-!
# code_statistic: a line counter for source files

A shallow embedding of `code_statistic.go`.

* Text (Go `string`) is a `List Char`.
* Go `int` counters are `Int`. Every counter of the program starts at zero and
  only grows by one per line read or by the counters of a tally built that way,
  so the 64-bit range is out of reach and no wrap-around is modelled.
* The standard library pieces the program calls (`strings.TrimSpace`,
  `regexp.MatchString`, `bufio.Reader.ReadString`, a buffered channel of
  capacity one) are modelled from their documented behaviour.
* The goroutines of `statisticFiles` (the dispatcher, the aggregator
  `showResult` and the scans `statisticFile`) run as a step relation: a step
  is one operation of one goroutine on shared state (a `select` on `infoC`, a
  call on the wait group, a meeting on `done`), and a run is any sequence of
  steps, so every interleaving of the goroutines is a run.
-/

namespace CodeStatistic

/-! ## Library: `unicode.IsSpace`, `strings.TrimSpace` -/

/-- Go `unicode.IsSpace`: the code points with the Unicode White_Space property. -/
def isSpace (c : Char) : Bool :=
  let n := c.toNat
  (0x09 ≤ n && n ≤ 0x0D) || n == 0x20 || n == 0x85 || n == 0xA0 || n == 0x1680 ||
  (0x2000 ≤ n && n ≤ 0x200A) || n == 0x2028 || n == 0x2029 || n == 0x202F ||
  n == 0x205F || n == 0x3000

/-- Go `strings.TrimSpace`: all leading and trailing white space removed. -/
def TrimSpace (s : List Char) : List Char :=
  ((s.dropWhile isSpace).reverse.dropWhile isSpace).reverse

/-! ## Library: the fragment of `regexp` that `commentR` uses -/

/-- Regular expressions, named after the operators of Go `regexp/syntax`. -/
inductive Regexp where
  | beginText : Regexp
  | endText : Regexp
  | literal (c : Char) : Regexp
  | anyCharNotNL : Regexp
  | star (r : Regexp) : Regexp
  | concat (r t : Regexp) : Regexp
  | alternate (r t : Regexp) : Regexp

/-- End positions of zero or more consecutive matches of a sub-expression whose
single matches from position `i` end at the positions `f i`. -/
def starEnds (f : Nat → List Nat) : Nat → Nat → List Nat
  | 0, i => [i]
  | fuel + 1, i => i :: (f i).flatMap (starEnds f fuel)

/-- All positions at which a match of the expression that starts at position
`i` of the text `s` can end. -/
def matchEnds (s : List Char) : Regexp → Nat → List Nat
  | .beginText, i => if i = 0 then [i] else []
  | .endText, i => if i = s.length then [i] else []
  | .literal c, i => if s.get? i = some c then [i + 1] else []
  | .anyCharNotNL, i =>
    match s.get? i with
    | some c => if c = '\n' then [] else [i + 1]
    | none => []
  | .star r, i => starEnds (matchEnds s r) s.length i
  | .concat r t, i => (matchEnds s r i).flatMap (matchEnds s t)
  | .alternate r t, i => matchEnds s r i ++ matchEnds s t i

/-- Go `(*Regexp).MatchString`: does the text contain any match of the
expression (the search is not anchored). -/
def MatchString (re : Regexp) (s : List Char) : Bool :=
  (List.range (s.length + 1)).any fun i => !(matchEnds s re i).isEmpty

/-! ## The program -/

/-- Source `commentR`: the pattern `(?:^//.*)|(?:^/\*.*)|(?:.*\*/$)`. -/
def commentR : Regexp :=
  .alternate
    (.concat .beginText (.concat (.literal '/') (.concat (.literal '/') (.star .anyCharNotNL))))
    (.alternate
      (.concat .beginText (.concat (.literal '/') (.concat (.literal '*') (.star .anyCharNotNL))))
      (.concat (.star .anyCharNotNL) (.concat (.literal '*') (.concat (.literal '/') .endText))))

/-- Source `workers`. -/
def workers : Int := 1000

/-- Source `statisticInfo`: the tally of one file. -/
structure statisticInfo where
  filename : List Char
  total : Int
  space : Int
  comment : Int
  regular : Int
  deriving DecidableEq

/-- Source `statisticResult`: the running totals of the aggregator. -/
structure statisticResult where
  totalFiles : Int
  sumRegular : Int
  sumSpace : Int
  sumComment : Int
  sumTotal : Int
  deriving DecidableEq

/-- Body of the read loop of `statisticFile` after the error check: count the
line, trim it and bump one of the three class counters. -/
def countLine (info : statisticInfo) (line : List Char) : statisticInfo :=
  let info := { info with total := info.total + 1 }
  let line := TrimSpace line
  if MatchString commentR line then { info with comment := info.comment + 1 }
  else if line = [] then { info with space := info.space + 1 }
  else { info with regular := info.regular + 1 }

/-! ### Reading a file line by line -/

/-- The non-nil `error` values a read can return: `io.EOF`, or anything else. -/
inductive ReadError where
  | EOF : ReadError
  | other : ReadError
  deriving DecidableEq

/-- One result of `reader.ReadString('\n')`: the data read and the error
(`none` is Go's `nil`). -/
abbrev ReadResult := List Char × Option ReadError

/-- Library `bufio.Reader.ReadString('\n')` over a file with the given content
that reads without I/O errors: the results of the successive calls up to and
including the first end-of-stream. Each call returns the data up to and
including the next newline; when the data ends before a newline is found, it
returns what is left together with `io.EOF`. `acc` is the part of the current
line already consumed. -/
def readAll (acc : List Char) : List Char → List ReadResult
  | [] => [(acc, some .EOF)]
  | c :: cs =>
    if c = '\n' then (acc ++ [c], none) :: readAll [] cs
    else readAll (acc ++ [c]) cs

/-- The read results of a file with the given content. -/
def fileReads (content : List Char) : List ReadResult := readAll [] content

/-- What `os.Open` followed by `bufio.NewReader` gives for a path: nothing when
the open fails, otherwise the results that the successive reads deliver. -/
abbrev FileSystem := List Char → Option (List ReadResult)

/-- The read loop of `statisticFile`, run against the results the reads
deliver. End-of-stream breaks the loop; any other error is only logged and
the data returned with it is counted like a line. `none`: the given results
are used up and the loop is still reading. -/
def scanLoop : statisticInfo → List ReadResult → Option statisticInfo
  | _, [] => none
  | info, (line, err) :: rest =>
    match err with
    | some .EOF => some info
    | _ => scanLoop (countLine info line) rest

/-- The value of `info` at the head of every iteration of the read loop of
`statisticFile`, in order. -/
def scanStates : statisticInfo → List ReadResult → List statisticInfo
  | info, [] => [info]
  | info, (line, err) :: rest =>
    match err with
    | some .EOF => [info]
    | _ => info :: scanStates (countLine info line) rest

/-! ### The pending queue -/

/-- Source `popChannel`, a channel of capacity one made by `newPopChannel`:
either empty or holding one batch. -/
abbrev popChannel := Option (List statisticInfo)

/-- Source `popChannel.stack`, run without interference. Each unfolding is one
iteration of the loop: on an empty channel only the send is ready, so the batch
is sent and the method returns; on a full channel only the receive is ready, so
the occupant is taken out and the batch is appended to it. -/
def stack (p : popChannel) (toChannel : List statisticInfo) : popChannel :=
  match p with
  | none => some toChannel
  | some old => stack none (old ++ toChannel)
termination_by p.isSome.toNat
decreasing_by simp

/-! ### Scanning one file -/

/-- What one invocation of `statisticFile` has done when it returns. -/
structure Effects where
  /-- The channel after the call. -/
  infoC : popChannel
  /-- The batches handed to `infoC.stack`, one entry per call. -/
  stacked : List (List statisticInfo)
  /-- The number of calls of the `done` callback. -/
  doneCalls : Nat
  deriving DecidableEq

/-- Source `statisticFile`. `done` tells whether a callback was passed (it is
`nil` for a synchronous scan). `none`: the invocation does not return within
the given read results. -/
def statisticFile (fs : FileSystem) (filename : List Char) (infoC : popChannel)
    (done : Bool) : Option Effects :=
  match fs filename with
  | none => some ⟨infoC, [], if done then 1 else 0⟩
  | some reads =>
    match scanLoop ⟨filename, 0, 0, 0, 0⟩ reads with
    | none => none
    | some info => some ⟨stack infoC [info], [[info]], if done then 1 else 0⟩

/-- The tally `statisticFile` builds for a file with the given content. -/
def fileTally (filename content : List Char) : Option statisticInfo :=
  scanLoop ⟨filename, 0, 0, 0, 0⟩ (fileReads content)

/-! ### Reading the list file -/

/-- The read loop of `getFilesFromList`. -/
def listLoop : List (List Char) → List ReadResult → Option (List (List Char))
  | _, [] => none
  | files, (line, err) :: rest =>
    match err with
    | some .EOF => some files
    | _ => listLoop (files ++ [TrimSpace line]) rest

/-- Source `getFilesFromList`. -/
def getFilesFromList (fs : FileSystem) (listName : List Char) :
    Option (List (List Char)) :=
  match fs listName with
  | none => some []
  | some reads => listLoop [] reads

/-! ### The aggregator -/

/-- One printed table row: the arguments of the `Printf` call, in order. -/
structure Row where
  filename : List Char
  regular : Int
  space : Int
  comment : Int
  total : Int
  deriving DecidableEq

/-- Body of the loop of `showInfos`: print the row of one tally and add it to
the running totals. -/
def showInfo (st : statisticResult × List Row) (info : statisticInfo) :
    statisticResult × List Row :=
  ({ totalFiles := st.1.totalFiles + 1
     sumRegular := st.1.sumRegular + info.regular
     sumSpace := st.1.sumSpace + info.space
     sumComment := st.1.sumComment + info.comment
     sumTotal := st.1.sumTotal + info.total },
   st.2 ++ [⟨info.filename, info.regular, info.space, info.comment, info.total⟩])

/-- Source `showInfos`, on the pair of the running totals and the rows printed
so far. -/
def showInfos (infos : List statisticInfo) (st : statisticResult × List Row) :
    statisticResult × List Row :=
  infos.foldl showInfo st

/-! ### The dispatcher -/

/-- How a path is scanned. -/
inductive Mode where
  | synchronous : Mode
  | spawned : Mode
  deriving DecidableEq

/-- The branch of the loop of `statisticFiles`: `g` is the value of
`runtime.NumGoroutine()` and `waiter` the counter of the wait group; the result
is the mode chosen and the counter when the scan is started. -/
def dispatch (g : Int) (waiter : Int) : Mode × Int :=
  if g > workers then (.synchronous, waiter) else (.spawned, waiter + 1)

/-! ### The dispatcher, the scans and the aggregator running together -/

/-- A running invocation of `statisticFile`, between two of its operations on
shared state. -/
inductive Scan where
  /-- Called; the file is not opened yet. -/
  | start (filename : List Char) : Scan
  /-- Inside the loop of `infoC.stack`, with the value of `toChannel`. -/
  | stacking (toChannel : List statisticInfo) : Scan
  /-- The body has ended; the deferred call of `done`, if there is one, has
  not run yet. -/
  | returning : Scan
  deriving DecidableEq

/-- The next operation of a running `statisticFile` on the channel `infoC`: the
channel afterwards and what is left of the invocation, nothing when it has
returned. From `start` the file is opened and read to its end, which touches no
shared state: after a failed open the body ends, otherwise the invocation
enters `infoC.stack` with its tally. Inside `stack` one `select` is executed:
the send when the channel is empty, after which the body ends, the receive when
it is full. From `returning` the deferred call runs and the invocation is over.
`none`: there is no next operation, the read loop does not end within the read
results. -/
def scanStep (fs : FileSystem) (infoC : popChannel) :
    Scan → Option (popChannel × Option Scan)
  | .start filename =>
    match fs filename with
    | none => some (infoC, some .returning)
    | some reads =>
      match scanLoop ⟨filename, 0, 0, 0, 0⟩ reads with
      | none => none
      | some info => some (infoC, some (.stacking [info]))
  | .stacking toChannel =>
    match infoC with
    | none => some (some toChannel, some .returning)
    | some old => some (none, some (.stacking (old ++ toChannel)))
  | .returning => some (infoC, none)

/-- A scan run on its own, with nothing else touching the channel, for at most
the given number of operations: the channel when the invocation is over. -/
def scanAlone (fs : FileSystem) : Nat → popChannel → Scan → Option popChannel
  | 0, _, _ => none
  | n + 1, infoC, scan =>
    match scanStep fs infoC scan with
    | none => none
    | some (c, none) => some c
    | some (c, some scan') => scanAlone fs n c scan'

/-- Where `statisticFiles` and `showResult` stand. The two meet on the channel
`done`, so one position describes both: up to `signalling` the aggregator is in
its `select` loop. -/
inductive Control where
  /-- In the `for` loop before the path at index `i`, with the paths not yet
  dispatched; when none is left, in `manage.waiter.Wait()`. -/
  | dispatching (i : Nat) (rest : List (List Char)) : Control
  /-- Inside the synchronous call of `statisticFile`. -/
  | scanning (scan : Scan) (i : Nat) (rest : List (List Char)) : Control
  /-- After `Wait` has returned, before `manage.done <- 0`. -/
  | signalling : Control
  /-- The aggregator has taken the signal and left its loop; the dispatcher
  waits for the count. -/
  | draining : Control
  /-- The aggregator has drained the channel and printed the `In total` row,
  and is about to send the count. -/
  | reporting : Control
  /-- The dispatcher has received the count and printed
  `total files: <requested><-><count>`. -/
  | finished (requested : Nat) (count : Int) : Control
  deriving DecidableEq

/-- Is the aggregator in its `select` loop. -/
def inLoop : Control → Bool
  | .dispatching _ _ => true
  | .scanning _ _ _ => true
  | .signalling => true
  | _ => false

/-- State of a run of `statisticFiles`. -/
structure Run where
  infoC : popChannel
  /-- The counter of `manage.waiter`. -/
  waiter : Int
  /-- The spawned invocations of `statisticFile` that have not returned. -/
  pool : List Scan
  /-- The aggregator's `result` and the rows it has printed. -/
  agg : statisticResult × List Row
  control : Control
  deriving DecidableEq

/-- The operations on shared state, one per step of a run. -/
inductive Action where
  /-- The dispatcher takes the next path, samples `runtime.NumGoroutine()` and
  either enters `statisticFile` itself or adds one to the wait group and
  spawns the scan. -/
  | dispatch : Action
  /-- The synchronous scan does its next operation. -/
  | scanNext : Action
  /-- The spawned scan at position `k` of the pool does its next operation. -/
  | poolNext (k : Nat) : Action
  /-- The `select` of the aggregator takes the batch in `infoC`, and
  `showInfos` runs on it. -/
  | receive : Action
  /-- The call `manage.waiter.Wait()` returns. -/
  | waitReturn : Action
  /-- The send `manage.done <- 0` meets the `select` of the aggregator. -/
  | signalDone : Action
  /-- The aggregator runs `if len(infoC) > 0 { showInfos(<-infoC, ...) }` and
  prints the `In total` row. -/
  | drain : Action
  /-- The send `done <- result.totalFiles` meets the receive in the final
  `Printf` of the dispatcher. -/
  | report : Action
  deriving DecidableEq

/-- One step of a run of `statisticFiles` on the given paths: the named
goroutine does its next operation on shared state, together with the local
work that leads up to it. `numGoroutine i` is the value
`runtime.NumGoroutine()` returns for the path at index `i`; any values are
allowed. A spawned scan that is over leaves the pool and, by its deferred call
of `done`, takes one off the wait group. `none`: the operation cannot be done
in this state. -/
def step (fs : FileSystem) (numGoroutine : Nat → Int) (filenames : List (List Char))
    (s : Run) : Action → Option Run
  | .dispatch =>
    match s.control with
    | .dispatching i (filename :: rest) =>
      match dispatch (numGoroutine i) s.waiter with
      | (.synchronous, _) => some { s with control := .scanning (.start filename) (i + 1) rest }
      | (.spawned, waiter) =>
        some { s with
          waiter := waiter, pool := s.pool ++ [.start filename],
          control := .dispatching (i + 1) rest }
    | _ => none
  | .scanNext =>
    match s.control with
    | .scanning scan i rest =>
      match scanStep fs s.infoC scan with
      | none => none
      | some (c, none) => some { s with infoC := c, control := .dispatching i rest }
      | some (c, some scan') => some { s with infoC := c, control := .scanning scan' i rest }
    | _ => none
  | .poolNext k =>
    match s.pool[k]? with
    | none => none
    | some scan =>
      match scanStep fs s.infoC scan with
      | none => none
      | some (c, none) =>
        some { s with infoC := c, pool := s.pool.eraseIdx k, waiter := s.waiter - 1 }
      | some (c, some scan') => some { s with infoC := c, pool := s.pool.set k scan' }
  | .receive =>
    if inLoop s.control then
      match s.infoC with
      | some infos => some { s with infoC := none, agg := showInfos infos s.agg }
      | none => none
    else none
  | .waitReturn =>
    match s.control with
    | .dispatching _ [] => if s.waiter = 0 then some { s with control := .signalling } else none
    | _ => none
  | .signalDone =>
    match s.control with
    | .signalling => some { s with control := .draining }
    | _ => none
  | .drain =>
    match s.control with
    | .draining =>
      match s.infoC with
      | some infos =>
        some { s with infoC := none, agg := showInfos infos s.agg, control := .reporting }
      | none => some { s with control := .reporting }
    | _ => none
  | .report =>
    match s.control with
    | .reporting => some { s with control := .finished filenames.length s.agg.1.totalFiles }
    | _ => none

/-- The state in which `statisticFiles` enters its `for` loop: the channel is
empty, the aggregator has been started and nothing is counted. -/
def initial (filenames : List (List Char)) : Run :=
  ⟨none, 0, [], (⟨0, 0, 0, 0, 0⟩, []), .dispatching 0 filenames⟩

/-- A run of `statisticFiles`: the steps of a schedule, one after the other.
`none`: some step of the schedule cannot be done. -/
def exec (fs : FileSystem) (numGoroutine : Nat → Int) (filenames : List (List Char)) :
    Run → List Action → Option Run
  | s, [] => some s
  | s, a :: rest =>
    match step fs numGoroutine filenames s a with
    | none => none
    | some s' => exec fs numGoroutine filenames s' rest

/-! ## The specification's notions -/

/-- The lines of a text as the specification counts them: the pieces between
newlines, where a last piece without a terminating newline is a line too. -/
def specLines (content : List Char) : List (List Char) :=
  let pieces := content.splitOn '\n'
  if pieces.getLast? = some [] then pieces.dropLast else pieces

/-- The three classes of the specification's LineClassifier. -/
inductive LineClass where
  | Blank : LineClass
  | Comment : LineClass
  | Regular : LineClass
  deriving DecidableEq

/-- The specification's rule for a trimmed line: Comment if it starts with
`//`, starts with `/*` or ends with `*/`; else Blank if it is empty; else
Regular. -/
def classify (t : List Char) : LineClass :=
  if "//".toList <+: t ∨ "/*".toList <+: t ∨ "*/".toList <:+ t then .Comment
  else if t = [] then .Blank
  else .Regular

/-- The text made of the given lines, each followed by a newline, and then
of `tail`. -/
def joinLines (ls : List (List Char)) (tail : List Char) : List Char :=
  (ls.map (· ++ ['\n'])).flatten ++ tail


/-! ## Notions used in the statements and proofs -/

/-- The row `showInfos` prints for a tally. -/
def rowOf (info : statisticInfo) : Row :=
  ⟨info.filename, info.regular, info.space, info.comment, info.total⟩

/-- What the loop body adds to `space` for a line. -/
def spaceOf (line : List Char) : Int :=
  if MatchString commentR (TrimSpace line) then 0 else if TrimSpace line = [] then 1 else 0

/-- What the loop body adds to `comment` for a line. -/
def commentOf (line : List Char) : Int :=
  if MatchString commentR (TrimSpace line) then 1 else 0

/-- What the loop body adds to `regular` for a line. -/
def regularOf (line : List Char) : Int :=
  if MatchString commentR (TrimSpace line) then 0 else if TrimSpace line = [] then 0 else 1

/-- The tally after the loop body has run on each of the given lines. -/
def tallyOf (info : statisticInfo) (lines : List (List Char)) : statisticInfo :=
  ⟨info.filename, info.total + lines.length, info.space + (lines.map spaceOf).sum,
    info.comment + (lines.map commentOf).sum, info.regular + (lines.map regularOf).sum⟩

/-- The invariant of a tally: the total is the sum of the three class counters
and no counter is negative. -/
def tallyInv (info : statisticInfo) : Prop :=
  info.total = info.space + info.comment + info.regular ∧
    0 ≤ info.total ∧ 0 ≤ info.space ∧ 0 ≤ info.comment ∧ 0 ≤ info.regular

instance (info : statisticInfo) : Decidable (tallyInv info) := by
  unfold tallyInv
  infer_instance

/-- A file system in which every file that opens reads without I/O error:
`files` gives the content of each path that can be opened. -/
def diskOf (files : List Char → Option (List Char)) : FileSystem :=
  fun path => (files path).map fileReads

/-- The number of the given paths that `os.Open` opens. -/
def openedBy (fs : FileSystem) (filenames : List (List Char)) : Nat :=
  (filenames.filter fun path => (fs path).isSome).length

/-- The number of tallies a running scan has still to deposit. -/
def scanOwed (fs : FileSystem) : Scan → Nat
  | .start filename => if (fs filename).isSome then 1 else 0
  | .stacking toChannel => toChannel.length
  | .returning => 0

/-- The number of tallies the dispatcher has still to bring about. -/
def controlOwed (fs : FileSystem) : Control → Nat
  | .dispatching _ rest => openedBy fs rest
  | .scanning scan _ rest => scanOwed fs scan + openedBy fs rest
  | _ => 0

/-- The number of tallies that are to reach the aggregator: those waiting in the
channel, those of the running scans and those of the paths not dispatched. -/
def owed (fs : FileSystem) (s : Run) : Nat :=
  (s.infoC.getD []).length + (s.pool.map (scanOwed fs)).sum + controlOwed fs s.control

/-- A bound on the number of operations a scan has left. -/
def scanCost : Scan → Nat
  | .start _ => 4
  | .stacking _ => 3
  | .returning => 1

/-- A bound on the number of operations the dispatcher has left. -/
def controlCost : Control → Nat
  | .dispatching _ rest => 5 * rest.length + 4
  | .scanning scan _ rest => scanCost scan + 5 * rest.length + 4
  | .signalling => 3
  | .draining => 2
  | .reporting => 1
  | .finished _ _ => 0

/-- A bound on the number of steps a run has left. -/
def cost (s : Run) : Nat :=
  (if s.infoC.isSome then 1 else 0) + (s.pool.map scanCost).sum + controlCost s.control

/-- What holds in every state of a run on the given paths. -/
def Consistent (fs : FileSystem) (filenames : List (List Char)) (s : Run) : Prop :=
  s.waiter = s.pool.length ∧
  s.agg.1.totalFiles + owed fs s = openedBy fs filenames ∧
  (s.agg.2.length : Int) = s.agg.1.totalFiles ∧
  (match s.control with
   | .dispatching _ _ => True
   | .scanning _ _ _ => True
   | .signalling => s.pool = []
   | .draining => s.pool = []
   | .reporting => s.pool = [] ∧ s.infoC = none
   | .finished requested count =>
     s.pool = [] ∧ s.infoC = none ∧ requested = filenames.length ∧
       count = s.agg.1.totalFiles)

/-- The three files of `threeFiles` and the path `missing`. -/
def fourPaths : List (List Char) :=
  ["a.go".toList, "b.go".toList, "missing".toList, "c.go".toList]

/-- A run on `fourPaths` in which the scans of `a.go` and `b.go`, and later
those of `c.go` and `b.go`, meet in `infoC.stack`; every scan is spawned. -/
def contendedRun : List Action :=
  [.dispatch, .dispatch, .poolNext 0, .poolNext 1, .poolNext 0, .poolNext 1,
   .poolNext 0, .dispatch, .poolNext 1, .poolNext 1, .dispatch, .poolNext 1,
   .poolNext 1, .poolNext 0, .poolNext 0, .receive, .poolNext 1, .poolNext 0,
   .waitReturn, .signalDone, .drain, .report]

/-- Three files that open and one path, `missing`, that does not. -/
def threeFiles (path : List Char) : Option (List Char) :=
  if path = "a.go".toList then some "// a\ncode();\n".toList
  else if path = "b.go".toList then some "\n".toList
  else if path = "c.go".toList then some "x := 1\n".toList
  else none

/-- The read loop as the specification describes it: a read that returns an
error, end-of-stream or not, stops the scan at that point with the tally of the
lines counted so far. -/
def specScanLoop : statisticInfo → List ReadResult → Option statisticInfo
  | _, [] => none
  | info, (line, err) :: rest =>
    match err with
    | some _ => some info
    | none => specScanLoop (countLine info line) rest

/-- Reads of a file whose second read fails with an error other than
end-of-stream. -/
def failingReads : List ReadResult :=
  [("a\n".toList, none), ("b".toList, some .other), ("c\n".toList, none), ([], some .EOF)]

/-- A list file whose last line has no terminating newline. -/
def listDisk (path : List Char) : Option (List Char) :=
  if path = "list".toList then some "a.txt\nb.txt".toList else none

/-- The tallies a scan has still to deposit after its next operation. -/
def leftOwed (fs : FileSystem) : Option Scan → Nat
  | none => 0
  | some scan => scanOwed fs scan

/-- The operations a scan has left after its next operation. -/
def leftCost : Option Scan → Nat
  | none => 0
  | some scan => scanCost scan

/-! ## Lemmas on the library model -/

theorem self_mem_starEnds (f : Nat → List Nat) (n i : Nat) : i ∈ starEnds f n i := by
  cases n <;> simp [starEnds]

theorem matchString_iff (re : Regexp) (s : List Char) :
    MatchString re s = true ↔ ∃ i, i ≤ s.length ∧ ∃ j, j ∈ matchEnds s re i := by
  simp only [MatchString, List.any_eq_true, List.mem_range, Nat.lt_succ_iff]
  constructor
  · rintro ⟨i, hi, h⟩
    refine ⟨i, hi, ?_⟩
    cases hm : matchEnds s re i with
    | nil => simp [hm] at h
    | cons j js => exact ⟨j, by simp⟩
  · rintro ⟨i, hi, j, hj⟩
    refine ⟨i, hi, ?_⟩
    cases hm : matchEnds s re i with
    | nil => simp [hm] at hj
    | cons j js => simp

theorem prefix_of_getElem (a b : Char) (s : List Char) (h0 : s[0]? = some a)
    (h1 : s[1]? = some b) : [a, b] <+: s := by
  match s, h0, h1 with
  | x :: y :: rest, h0, h1 =>
    simp at h0 h1
    subst h0 h1
    exact ⟨rest, rfl⟩

theorem suffix_of_getElem (a b : Char) (s : List Char) (k : Nat) (h0 : s[k]? = some a)
    (h1 : s[k + 1]? = some b) (hk : k + 2 = s.length) : [a, b] <:+ s := by
  induction s generalizing k with
  | nil => simp at hk
  | cons x xs ih =>
    cases k with
    | zero =>
      match xs, h1, hk with
      | [y], h1, _ =>
        simp at h0 h1
        subst h0 h1
        exact List.suffix_refl _
    | succ k =>
      simp at h0 h1 hk
      exact (ih k h0 h1 (by omega)).trans (List.suffix_cons x xs)

/-- The pattern `commentR` matches a text exactly when the text starts with
`//`, starts with `/*` or ends with `*/`. -/
theorem commentR_matchString (s : List Char) :
    MatchString commentR s = true ↔
      (['/', '/'] <+: s ∨ ['/', '*'] <+: s ∨ ['*', '/'] <:+ s) := by
  rw [matchString_iff]
  constructor
  · rintro ⟨i, _, j, h⟩
    simp only [commentR, matchEnds, List.mem_flatMap, List.mem_append] at h
    rcases h with ⟨a, ha, b, hb, c, hc, _⟩ | ⟨a, ha, b, hb, c, hc, _⟩ | ⟨a, _, b, hb, c, hc, hj⟩
    · left
      split_ifs at ha hb hc with h1 h2 h3 <;> simp at ha hb hc
      subst h1 ha hb
      exact prefix_of_getElem _ _ s (by simpa using h2) (by simpa using h3)
    · right; left
      split_ifs at ha hb hc with h1 h2 h3 <;> simp at ha hb hc
      subst h1 ha hb
      exact prefix_of_getElem _ _ s (by simpa using h2) (by simpa using h3)
    · right; right
      split_ifs at hb hc hj with h1 h2 h3 <;> simp at hb hc hj
      subst hb hc
      exact suffix_of_getElem _ _ s a (by simpa using h1) (by simpa using h2) h3
  · rintro (⟨t, rfl⟩ | ⟨t, rfl⟩ | ⟨t, rfl⟩)
    · refine ⟨0, by simp, 2, ?_⟩
      simp [commentR, matchEnds, List.mem_flatMap, self_mem_starEnds]
    · refine ⟨0, by simp, 2, ?_⟩
      simp [commentR, matchEnds, List.mem_flatMap, self_mem_starEnds]
    · refine ⟨t.length, by simp, t.length + 2, ?_⟩
      simp only [commentR, matchEnds, List.mem_flatMap, List.mem_append]
      right; right
      refine ⟨t.length, self_mem_starEnds _ _ _, ?_⟩
      have h0 : (t ++ ['*', '/'])[t.length]? = some '*' := by
        rw [List.getElem?_append_right (le_refl _)]; simp
      have h1 : (t ++ ['*', '/'])[t.length + 1]? = some '/' := by
        rw [List.getElem?_append_right (by omega)]; simp
      simp [List.get?_eq_getElem?, h0, h1]

theorem countLine_classify (info : statisticInfo) (line : List Char) :
    countLine info line =
      (match classify (TrimSpace line) with
       | .Comment => { info with total := info.total + 1, comment := info.comment + 1 }
       | .Blank => { info with total := info.total + 1, space := info.space + 1 }
       | .Regular => { info with total := info.total + 1, regular := info.regular + 1 }) := by
  have hm : MatchString commentR (TrimSpace line) = true ↔
      ("//".toList <+: TrimSpace line ∨ "/*".toList <+: TrimSpace line ∨
        "*/".toList <:+ TrimSpace line) := commentR_matchString (TrimSpace line)
  unfold countLine classify
  by_cases h : MatchString commentR (TrimSpace line) = true
  · have h2 := hm.mp h
    simp only [h, if_true]
    rw [if_pos h2]
  · have h2 : ¬ ("//".toList <+: TrimSpace line ∨ "/*".toList <+: TrimSpace line ∨
        "*/".toList <:+ TrimSpace line) := fun hc => h (hm.mpr hc)
    simp only [h]
    rw [if_neg h2]
    by_cases he : TrimSpace line = []
    · simp [he]
    · simp [he]

/-! ## Lemmas on the pending queue and the aggregator -/

theorem stack_none (A : List statisticInfo) : stack none A = some A := by
  rw [stack]

theorem stack_some (B A : List statisticInfo) : stack (some B) A = some (B ++ A) := by
  rw [stack, stack]

theorem stack_eq (p : popChannel) (A : List statisticInfo) :
    stack p A = some (p.getD [] ++ A) := by
  cases p with
  | none => simp [stack_none]
  | some B => simp [stack_some]

theorem showInfos_eq (infos : List statisticInfo) (st : statisticResult × List Row) :
    showInfos infos st =
      ({ totalFiles := st.1.totalFiles + infos.length
         sumRegular := st.1.sumRegular + (infos.map (·.regular)).sum
         sumSpace := st.1.sumSpace + (infos.map (·.space)).sum
         sumComment := st.1.sumComment + (infos.map (·.comment)).sum
         sumTotal := st.1.sumTotal + (infos.map (·.total)).sum },
       st.2 ++ infos.map rowOf) := by
  induction infos generalizing st with
  | nil => simp [showInfos]
  | cons info rest ih =>
    have h : showInfos (info :: rest) st = showInfos rest (showInfo st info) := rfl
    rw [h, ih]
    simp only [showInfo, rowOf, List.map_cons, List.sum_cons, List.length_cons, List.append_assoc,
      List.singleton_append, Nat.cast_add, Nat.cast_one]
    refine Prod.ext ?_ rfl
    simp only [statisticResult.mk.injEq]
    refine ⟨?_, ?_, ?_, ?_, ?_⟩ <;> ring

theorem showInfos_batches (batches : List (List statisticInfo))
    (st : statisticResult × List Row) :
    batches.foldl (fun st infos => showInfos infos st) st = showInfos batches.flatten st := by
  induction batches generalizing st with
  | nil => simp [showInfos]
  | cons b rest ih =>
    simp only [List.foldl_cons, List.flatten_cons]
    rw [ih]
    simp [showInfos, List.foldl_append]

/-! ## Lemmas on the read loops -/

theorem countLine_eq (info : statisticInfo) (line : List Char) :
    countLine info line = ⟨info.filename, info.total + 1, info.space + spaceOf line,
      info.comment + commentOf line, info.regular + regularOf line⟩ := by
  unfold countLine spaceOf commentOf regularOf
  by_cases h : MatchString commentR (TrimSpace line) = true
  · simp [h]
  · have h2 : MatchString commentR (TrimSpace line) = false := by simpa using h
    by_cases he : TrimSpace line = []
    · simp only [h2]; simp [he]
    · simp only [h2]; simp [he]

theorem foldl_countLine (lines : List (List Char)) (info : statisticInfo) :
    lines.foldl countLine info = tallyOf info lines := by
  induction lines generalizing info with
  | nil => simp [tallyOf]
  | cons l rest ih =>
    rw [List.foldl_cons, ih, countLine_eq]
    simp only [tallyOf, List.map_cons, List.sum_cons, List.length_cons, Nat.cast_add,
      Nat.cast_one, statisticInfo.mk.injEq, true_and]
    refine ⟨?_, ?_, ?_, ?_⟩ <;> ring

/-- The read loop ends at the first end-of-stream result, with every read before
it counted as a line. -/
theorem scanLoop_eof (pre : List ReadResult) (l : List Char) (post : List ReadResult)
    (info : statisticInfo) (hpre : ∀ r ∈ pre, r.2 ≠ some ReadError.EOF) :
    scanLoop info (pre ++ (l, some ReadError.EOF) :: post) =
      some ((pre.map (·.1)).foldl countLine info) := by
  induction pre generalizing info with
  | nil => simp [scanLoop]
  | cons r rest ih =>
    obtain ⟨line, err⟩ := r
    have hr : err ≠ some ReadError.EOF := hpre (line, err) (by simp)
    have hrest : ∀ r ∈ rest, r.2 ≠ some ReadError.EOF := fun r hm => hpre r (by simp [hm])
    have step : scanLoop info ((line, err) :: (rest ++ (l, some ReadError.EOF) :: post)) =
        scanLoop (countLine info line) (rest ++ (l, some ReadError.EOF) :: post) := by
      match err, hr with
      | none, _ => rfl
      | some ReadError.other, _ => rfl
    rw [List.cons_append, step, ih _ hrest]
    simp

/-- Without an end-of-stream result the read loop does not end, however many
reads are given. -/
theorem scanLoop_no_eof (reads : List ReadResult) (info : statisticInfo)
    (h : ∀ r ∈ reads, r.2 ≠ some ReadError.EOF) : scanLoop info reads = none := by
  induction reads generalizing info with
  | nil => rfl
  | cons r rest ih =>
    obtain ⟨line, err⟩ := r
    have hr : err ≠ some ReadError.EOF := h (line, err) (by simp)
    have hrest : ∀ r ∈ rest, r.2 ≠ some ReadError.EOF := fun r hm => h r (by simp [hm])
    match err, hr with
    | none, _ => exact ih _ hrest
    | some ReadError.other, _ => exact ih _ hrest

theorem listLoop_eof (pre : List ReadResult) (l : List Char) (post : List ReadResult)
    (files : List (List Char)) (hpre : ∀ r ∈ pre, r.2 ≠ some ReadError.EOF) :
    listLoop files (pre ++ (l, some ReadError.EOF) :: post) =
      some (files ++ pre.map (fun r => TrimSpace r.1)) := by
  induction pre generalizing files with
  | nil => simp [listLoop]
  | cons r rest ih =>
    obtain ⟨line, err⟩ := r
    have hr : err ≠ some ReadError.EOF := hpre (line, err) (by simp)
    have hrest : ∀ r ∈ rest, r.2 ≠ some ReadError.EOF := fun r hm => hpre r (by simp [hm])
    have step : listLoop files ((line, err) :: (rest ++ (l, some ReadError.EOF) :: post)) =
        listLoop (files ++ [TrimSpace line]) (rest ++ (l, some ReadError.EOF) :: post) := by
      match err, hr with
      | none, _ => rfl
      | some ReadError.other, _ => rfl
    rw [List.cons_append, step, ih _ hrest]
    simp

theorem readAll_tail (acc tail : List Char) (h : '\n' ∉ tail) :
    readAll acc tail = [(acc ++ tail, some ReadError.EOF)] := by
  induction tail generalizing acc with
  | nil => simp [readAll]
  | cons c cs ih =>
    have hc : c ≠ '\n' := fun e => h (by simp [e])
    have hcs : '\n' ∉ cs := fun e => h (by simp [e])
    simp only [readAll, hc, if_false]
    rw [ih _ hcs]
    simp

theorem readAll_line (acc l rest : List Char) (h : '\n' ∉ l) :
    readAll acc (l ++ '\n' :: rest) = (acc ++ l ++ ['\n'], none) :: readAll [] rest := by
  induction l generalizing acc with
  | nil => simp [readAll]
  | cons c cs ih =>
    have hc : c ≠ '\n' := fun e => h (by simp [e])
    have hcs : '\n' ∉ cs := fun e => h (by simp [e])
    have step : readAll acc (c :: (cs ++ '\n' :: rest)) =
        readAll (acc ++ [c]) (cs ++ '\n' :: rest) := by
      simp [readAll, hc]
    rw [List.cons_append, step, ih _ hcs]
    simp

theorem joinLines_cons (l : List Char) (ls : List (List Char)) (tail : List Char) :
    joinLines (l :: ls) tail = l ++ '\n' :: joinLines ls tail := by
  simp [joinLines]

theorem fileReads_joinLines (ls : List (List Char)) (tail : List Char)
    (hls : ∀ l ∈ ls, '\n' ∉ l) (htail : '\n' ∉ tail) :
    fileReads (joinLines ls tail) =
      ls.map (fun l => (l ++ ['\n'], none)) ++ [(tail, some ReadError.EOF)] := by
  unfold fileReads
  induction ls with
  | nil => simpa [joinLines] using readAll_tail [] tail htail
  | cons l rest ih =>
    rw [joinLines_cons, readAll_line _ _ _ (hls l (by simp)), ih (fun l hm => hls l (by simp [hm]))]
    simp

theorem trimSpace_newline (l : List Char) : TrimSpace (l ++ ['\n']) = TrimSpace l := by
  have hnl : isSpace '\n' = true := by decide
  unfold TrimSpace
  rw [List.dropWhile_append]
  by_cases h : (List.dropWhile isSpace l).isEmpty = true
  · rw [if_pos h]
    have h2 : List.dropWhile isSpace l = [] := by simpa using h
    simp [h2, hnl]
  · rw [if_neg h]
    simp [List.dropWhile_cons, hnl]

theorem splitOn_joinLines (ls : List (List Char)) (tail : List Char)
    (hls : ∀ l ∈ ls, '\n' ∉ l) (htail : '\n' ∉ tail) :
    (joinLines ls tail).splitOn '\n' = ls ++ [tail] := by
  induction ls with
  | nil =>
    have : ∀ x ∈ tail, ¬ ((x == '\n') = true) := by
      intro x hx e
      exact htail (by rw [← eq_of_beq e]; exact hx)
    simpa [joinLines, List.splitOn] using List.splitOnP_eq_single _ _ this
  | cons l rest ih =>
    have hl : ∀ x ∈ l, ¬ ((x == '\n') = true) := by
      intro x hx e
      exact hls l (by simp) (by rw [← eq_of_beq e]; exact hx)
    rw [joinLines_cons]
    unfold List.splitOn
    rw [List.splitOnP_first _ _ hl '\n' (by simp)]
    have := ih (fun l hm => hls l (by simp [hm]))
    unfold List.splitOn at this
    rw [this]
    simp

theorem specLines_joinLines (ls : List (List Char)) (tail : List Char)
    (hls : ∀ l ∈ ls, '\n' ∉ l) (htail : '\n' ∉ tail) :
    specLines (joinLines ls tail) = ls ++ (if tail = [] then [] else [tail]) := by
  unfold specLines
  simp only [splitOn_joinLines ls tail hls htail]
  by_cases h : tail = []
  · simp [h]
  · simp [h]

/-- Every text is a sequence of newline-terminated lines followed by a rest
without newline. -/
theorem exists_joinLines (content : List Char) :
    ∃ ls tail, (∀ l ∈ ls, '\n' ∉ l) ∧ '\n' ∉ tail ∧ content = joinLines ls tail ∧
      (content = [] ∨ content.getLast? = some '\n' → tail = []) := by
  induction content with
  | nil => exact ⟨[], [], by simp, by simp, by simp [joinLines], fun _ => rfl⟩
  | cons c cs ih =>
    obtain ⟨ls, tail, hls, htail, hcs, hend⟩ := ih
    by_cases hc : c = '\n'
    · refine ⟨[] :: ls, tail, ?_, htail, ?_, ?_⟩
      · intro l hm
        rcases List.mem_cons.mp hm with rfl | hm
        · simp
        · exact hls l hm
      · rw [joinLines_cons, hc, hcs]; simp
      · intro h
        apply hend
        rcases h with h | h
        · simp at h
        · cases cs with
          | nil => left; rfl
          | cons d ds => right; simpa [List.getLast?_cons_cons] using h
    · cases ls with
      | nil =>
        refine ⟨[], c :: tail, by simp, ?_, ?_, ?_⟩
        · intro hm
          rcases List.mem_cons.mp hm with e | hm
          · exact hc e.symm
          · exact htail hm
        · rw [hcs]; simp [joinLines]
        · intro h
          exfalso
          rcases h with h | h
          · simp at h
          · have ht : tail = [] → False := by
              intro e
              subst e
              simp [joinLines] at hcs
              subst hcs
              simp at h
              exact hc h
            have hcs2 : cs = tail := by simpa [joinLines] using hcs
            subst hcs2
            cases cs with
            | nil => exact ht rfl
            | cons d ds =>
              rw [List.getLast?_cons_cons] at h
              have := hend (Or.inr h)
              exact ht this
      | cons l ls =>
        refine ⟨(c :: l) :: ls, tail, ?_, htail, ?_, ?_⟩
        · intro x hm
          rcases List.mem_cons.mp hm with rfl | hm
          · intro hx
            rcases List.mem_cons.mp hx with e | hx
            · exact hc e.symm
            · exact hls l (by simp) hx
          · exact hls x (by simp [hm])
        · rw [hcs, joinLines_cons, joinLines_cons]; simp
        · intro h
          apply hend
          rcases h with h | h
          · simp at h
          · right
            cases cs with
            | nil => simp [joinLines_cons] at hcs
            | cons d ds => simpa [List.getLast?_cons_cons] using h

theorem fileTally_joinLines (filename : List Char) (ls : List (List Char)) (tail : List Char)
    (hls : ∀ l ∈ ls, '\n' ∉ l) (htail : '\n' ∉ tail) :
    fileTally filename (joinLines ls tail) =
      some (tallyOf ⟨filename, 0, 0, 0, 0⟩ (ls.map (· ++ ['\n']))) := by
  unfold fileTally
  rw [fileReads_joinLines ls tail hls htail, scanLoop_eof _ _ _ _ (by simp), foldl_countLine]
  simp [Function.comp_def]

theorem classOf_sum (line : List Char) :
    spaceOf line + commentOf line + regularOf line = 1 ∧
      0 ≤ spaceOf line ∧ 0 ≤ commentOf line ∧ 0 ≤ regularOf line := by
  unfold spaceOf commentOf regularOf
  by_cases h : MatchString commentR (TrimSpace line) = true
  · simp [h]
  · have h2 : MatchString commentR (TrimSpace line) = false := by simpa using h
    simp only [h2]
    by_cases he : TrimSpace line = [] <;> simp [he]

theorem tallyInv_countLine (info : statisticInfo) (line : List Char) (h : tallyInv info) :
    tallyInv (countLine info line) := by
  obtain ⟨h1, h2, h3, h4⟩ := classOf_sum line
  obtain ⟨g1, g2, g3, g4, g5⟩ := h
  rw [countLine_eq]
  refine ⟨?_, ?_, ?_, ?_, ?_⟩ <;> simp only <;> omega

theorem tallyInv_scanStates (reads : List ReadResult) (info : statisticInfo)
    (h : tallyInv info) : ∀ s ∈ scanStates info reads, tallyInv s := by
  induction reads generalizing info with
  | nil => intro s hs; simp [scanStates] at hs; exact hs ▸ h
  | cons r rest ih =>
    obtain ⟨line, err⟩ := r
    intro s hs
    match err, hs with
    | some ReadError.EOF, hs => simp [scanStates] at hs; exact hs ▸ h
    | none, hs =>
      simp only [scanStates, List.mem_cons] at hs
      rcases hs with rfl | hs
      · exact h
      · exact ih _ (tallyInv_countLine _ _ h) s hs
    | some ReadError.other, hs =>
      simp only [scanStates, List.mem_cons] at hs
      rcases hs with rfl | hs
      · exact h
      · exact ih _ (tallyInv_countLine _ _ h) s hs

theorem tallyInv_scanLoop (reads : List ReadResult) (info out : statisticInfo)
    (h : tallyInv info) (hout : scanLoop info reads = some out) : tallyInv out := by
  induction reads generalizing info with
  | nil => simp [scanLoop] at hout
  | cons r rest ih =>
    obtain ⟨line, err⟩ := r
    match err, hout with
    | some ReadError.EOF, hout => simp [scanLoop] at hout; exact hout ▸ h
    | none, hout => exact ih _ (tallyInv_countLine _ _ h) hout
    | some ReadError.other, hout => exact ih _ (tallyInv_countLine _ _ h) hout

theorem tallyInv_zero (filename : List Char) : tallyInv ⟨filename, 0, 0, 0, 0⟩ := by
  simp [tallyInv]

theorem count_newline_joinLines (ls : List (List Char)) (tail : List Char)
    (hls : ∀ l ∈ ls, '\n' ∉ l) (htail : '\n' ∉ tail) :
    (joinLines ls tail).count '\n' = ls.length := by
  induction ls with
  | nil => simpa [joinLines] using List.count_eq_zero_of_not_mem htail
  | cons l rest ih =>
    rw [joinLines_cons, List.count_append, List.count_cons_self,
      ih (fun l hm => hls l (by simp [hm])),
      List.count_eq_zero_of_not_mem (hls l (by simp))]
    simp

theorem fileTally_some (filename content : List Char) :
    ∃ info, fileTally filename content = some info := by
  obtain ⟨ls, tail, hls, htail, rfl, _⟩ := exists_joinLines content
  exact ⟨_, fileTally_joinLines filename ls tail hls htail⟩

/-! ## Lemmas on the tally of a concatenation -/

theorem joinLines_append (ls ls' : List (List Char)) (tail : List Char) :
    joinLines ls [] ++ joinLines ls' tail = joinLines (ls ++ ls') tail := by
  simp [joinLines]

theorem classOf_newline (line : List Char) :
    spaceOf (line ++ ['\n']) = spaceOf line ∧ commentOf (line ++ ['\n']) = commentOf line ∧
      regularOf (line ++ ['\n']) = regularOf line := by
  unfold spaceOf commentOf regularOf
  rw [trimSpace_newline]
  exact ⟨rfl, rfl, rfl⟩

theorem classify_comment_iff (t : List Char) :
    classify t = LineClass.Comment ↔ MatchString commentR t = true := by
  have hm : MatchString commentR t = true ↔
      ("//".toList <+: t ∨ "/*".toList <+: t ∨ "*/".toList <:+ t) := commentR_matchString t
  unfold classify
  by_cases h : "//".toList <+: t ∨ "/*".toList <+: t ∨ "*/".toList <:+ t
  · simp only [if_pos h, true_iff]; exact hm.mpr h
  · rw [if_neg h]
    have h2 : ¬ MatchString commentR t = true := fun hc => h (hm.mp hc)
    have h3 : MatchString commentR t = false := by simpa using h2
    by_cases he : t = []
    · simp only [if_pos he]; simp [h3]
    · simp only [if_neg he]; simp [h3]

theorem fileTally_append (filename A B : List Char)
    (hA : A = [] ∨ A.getLast? = some '\n') :
    ∃ a b ab, fileTally filename A = some a ∧ fileTally filename B = some b ∧
      fileTally filename (A ++ B) = some ab ∧
      ab.total = a.total + b.total ∧ ab.space = a.space + b.space ∧
      ab.comment = a.comment + b.comment ∧ ab.regular = a.regular + b.regular := by
  obtain ⟨lsA, tailA, hlsA, htailA, rfl, hendA⟩ := exists_joinLines A
  obtain ⟨lsB, tailB, hlsB, htailB, rfl, _⟩ := exists_joinLines B
  have ht : tailA = [] := hendA hA
  subst ht
  have hls : ∀ l ∈ lsA ++ lsB, '\n' ∉ l := by
    intro l hm
    rcases List.mem_append.mp hm with hm | hm
    · exact hlsA l hm
    · exact hlsB l hm
  refine ⟨_, _, tallyOf ⟨filename, 0, 0, 0, 0⟩ ((lsA ++ lsB).map (· ++ ['\n'])),
    fileTally_joinLines filename lsA [] hlsA htailA,
    fileTally_joinLines filename lsB tailB hlsB htailB, ?_, ?_⟩
  · rw [joinLines_append]
    exact fileTally_joinLines filename (lsA ++ lsB) tailB hls htailB
  · simp only [tallyOf, List.map_append, List.sum_append, List.length_append, List.length_map,
      Nat.cast_add]
    refine ⟨?_, ?_, ?_, ?_⟩ <;> ring

theorem fileTally_insert (filename A B line : List Char)
    (hA : A = [] ∨ A.getLast? = some '\n') (hline : '\n' ∉ line) :
    ∃ a b ab, fileTally filename A = some a ∧ fileTally filename B = some b ∧
      fileTally filename (A ++ (line ++ '\n' :: B)) = some ab ∧
      ab.total = a.total + b.total + 1 ∧ ab.space = a.space + b.space + spaceOf line ∧
      ab.comment = a.comment + b.comment + commentOf line ∧
      ab.regular = a.regular + b.regular + regularOf line := by
  obtain ⟨lsA, tailA, hlsA, htailA, rfl, hendA⟩ := exists_joinLines A
  obtain ⟨lsB, tailB, hlsB, htailB, rfl, _⟩ := exists_joinLines B
  have ht : tailA = [] := hendA hA
  subst ht
  have hls : ∀ l ∈ lsA ++ line :: lsB, '\n' ∉ l := by
    intro l hm
    rcases List.mem_append.mp hm with hm | hm
    · exact hlsA l hm
    · rcases List.mem_cons.mp hm with rfl | hm
      · exact hline
      · exact hlsB l hm
  obtain ⟨c1, c2, c3⟩ := classOf_newline line
  refine ⟨_, _, tallyOf ⟨filename, 0, 0, 0, 0⟩ ((lsA ++ line :: lsB).map (· ++ ['\n'])),
    fileTally_joinLines filename lsA [] hlsA htailA,
    fileTally_joinLines filename lsB tailB hlsB htailB, ?_, ?_⟩
  · rw [← joinLines_cons, joinLines_append]
    exact fileTally_joinLines filename (lsA ++ line :: lsB) tailB hls htailB
  · simp only [tallyOf, List.map_append, List.map_cons, List.sum_append, List.sum_cons,
      List.length_append, List.length_cons, List.length_map, Nat.cast_add, Nat.cast_one,
      c1, c2, c3]
    refine ⟨?_, ?_, ?_, ?_⟩ <;> ring

/-! ## Lemmas on the runs of the dispatcher -/

theorem openedBy_cons (fs : FileSystem) (filename : List Char) (rest : List (List Char)) :
    openedBy fs (filename :: rest) = scanOwed fs (Scan.start filename) + openedBy fs rest := by
  unfold openedBy scanOwed
  by_cases h : (fs filename).isSome = true
  · simp [List.filter_cons, h]; omega
  · simp [List.filter_cons, h]

theorem pool_eraseIdx (w : Scan → Nat) (l : List Scan) (k : Nat) (x : Scan)
    (h : l[k]? = some x) :
    ((l.eraseIdx k).map w).sum + w x = (l.map w).sum ∧ (l.eraseIdx k).length + 1 = l.length := by
  induction l generalizing k with
  | nil => simp at h
  | cons a rest ih =>
    cases k with
    | zero =>
      simp at h
      subst h
      simp
      omega
    | succ k =>
      simp at h
      obtain ⟨h1, h2⟩ := ih k h
      simp
      omega

theorem pool_set (w : Scan → Nat) (l : List Scan) (k : Nat) (x y : Scan)
    (h : l[k]? = some x) :
    ((l.set k y).map w).sum + w x = (l.map w).sum + w y := by
  induction l generalizing k with
  | nil => simp at h
  | cons a rest ih =>
    cases k with
    | zero =>
      simp at h
      subst h
      simp
      omega
    | succ k =>
      simp at h
      have := ih k h
      simp only [List.set_cons_succ, List.map_cons, List.sum_cons]
      omega

theorem scanStep_owed (fs : FileSystem) (c c' : popChannel) (scan : Scan) (r : Option Scan)
    (h : scanStep fs c scan = some (c', r)) :
    (c'.getD []).length + leftOwed fs r = (c.getD []).length + scanOwed fs scan := by
  cases scan with
  | start filename =>
    unfold scanStep at h
    cases hfs : fs filename with
    | none =>
      simp [hfs] at h
      obtain ⟨rfl, rfl⟩ := h
      simp [leftOwed, scanOwed, hfs]
    | some reads =>
      cases hs : scanLoop ⟨filename, 0, 0, 0, 0⟩ reads with
      | none => simp [hfs, hs] at h
      | some info =>
        simp [hfs, hs] at h
        obtain ⟨rfl, rfl⟩ := h
        simp [leftOwed, scanOwed, hfs]
  | stacking toChannel =>
    unfold scanStep at h
    cases c with
    | none =>
      simp at h
      obtain ⟨rfl, rfl⟩ := h
      simp [leftOwed, scanOwed]
    | some old =>
      simp at h
      obtain ⟨rfl, rfl⟩ := h
      simp [leftOwed, scanOwed]
  | returning =>
    simp [scanStep] at h
    obtain ⟨rfl, rfl⟩ := h
    simp [leftOwed, scanOwed]

theorem scanStep_cost (fs : FileSystem) (c c' : popChannel) (scan : Scan) (r : Option Scan)
    (h : scanStep fs c scan = some (c', r)) :
    (if c'.isSome then 1 else 0) + leftCost r < (if c.isSome then 1 else 0) + scanCost scan := by
  cases scan with
  | start filename =>
    unfold scanStep at h
    cases hfs : fs filename with
    | none =>
      simp [hfs] at h
      obtain ⟨rfl, rfl⟩ := h
      simp [leftCost, scanCost]
    | some reads =>
      cases hs : scanLoop ⟨filename, 0, 0, 0, 0⟩ reads with
      | none => simp [hfs, hs] at h
      | some info =>
        simp [hfs, hs] at h
        obtain ⟨rfl, rfl⟩ := h
        simp [leftCost, scanCost]
  | stacking toChannel =>
    unfold scanStep at h
    cases c with
    | none =>
      simp at h
      obtain ⟨rfl, rfl⟩ := h
      simp [leftCost, scanCost]
    | some old =>
      simp at h
      obtain ⟨rfl, rfl⟩ := h
      simp [leftCost, scanCost]
  | returning =>
    simp [scanStep] at h
    obtain ⟨rfl, rfl⟩ := h
    simp [leftCost, scanCost]

theorem scanStep_enabled (fs : FileSystem) (c : popChannel) (scan : Scan)
    (hret : ∀ filename reads, fs filename = some reads →
      ∃ info, scanLoop ⟨filename, 0, 0, 0, 0⟩ reads = some info) :
    ∃ r, scanStep fs c scan = some r := by
  cases scan with
  | start filename =>
    cases hfs : fs filename with
    | none => simp [scanStep, hfs]
    | some reads =>
      obtain ⟨info, hi⟩ := hret filename reads hfs
      simp [scanStep, hfs, hi]
  | stacking toChannel =>
    cases c with
    | none => simp [scanStep]
    | some old => simp [scanStep]
  | returning => simp [scanStep]

theorem step_dispatch (fs : FileSystem) (numGoroutine : Nat → Int)
    (filenames : List (List Char)) (s s' : Run)
    (h : step fs numGoroutine filenames s Action.dispatch = some s')
    (hc : Consistent fs filenames s) :
    Consistent fs filenames s' ∧ cost s' < cost s := by
  obtain ⟨infoC, waiter, pool, agg, control⟩ := s
  obtain ⟨h1, h2, h3, h4⟩ := hc
  simp only [owed] at h1 h2 h3 h4
  cases control with
  | dispatching i rest =>
    cases rest with
    | nil => simp [step] at h
    | cons filename rest =>
      simp only [controlOwed, openedBy_cons] at h2
      by_cases hg : numGoroutine i > workers
      · simp [step, dispatch, hg] at h
        subst h
        refine ⟨⟨h1, ?_, h3, trivial⟩, ?_⟩
        · simp only [owed, controlOwed]
          exact h2
        · simp [cost, controlCost, scanCost]
          omega
      · simp [step, dispatch, hg] at h
        subst h
        refine ⟨⟨?_, ?_, h3, trivial⟩, ?_⟩
        · simp [h1]
        · simp only [owed, controlOwed, List.map_append, List.sum_append, List.map_cons,
            List.map_nil, List.sum_cons, List.sum_nil]
          push_cast at h2 ⊢
          omega
        · simp [cost, controlCost, scanCost]
          omega
  | scanning _ _ _ => simp [step] at h
  | signalling => simp [step] at h
  | draining => simp [step] at h
  | reporting => simp [step] at h
  | finished _ _ => simp [step] at h

theorem step_scanNext (fs : FileSystem) (numGoroutine : Nat → Int)
    (filenames : List (List Char)) (s s' : Run)
    (h : step fs numGoroutine filenames s Action.scanNext = some s')
    (hc : Consistent fs filenames s) :
    Consistent fs filenames s' ∧ cost s' < cost s := by
  obtain ⟨infoC, waiter, pool, agg, control⟩ := s
  obtain ⟨h1, h2, h3, h4⟩ := hc
  simp only [owed] at h1 h2 h3 h4
  cases control with
  | scanning scan i rest =>
    simp only [controlOwed] at h2
    cases hs : scanStep fs infoC scan with
    | none => simp [step, hs] at h
    | some r =>
      obtain ⟨c, left⟩ := r
      have ho := scanStep_owed fs infoC c scan left hs
      have hk := scanStep_cost fs infoC c scan left hs
      cases left with
      | none =>
        simp [step, hs] at h
        subst h
        simp only [leftOwed, leftCost] at ho hk
        refine ⟨⟨h1, ?_, h3, trivial⟩, ?_⟩
        · simp only [owed, controlOwed]
          omega
        · simp only [cost, controlCost]
          omega
      | some scan' =>
        simp [step, hs] at h
        subst h
        simp only [leftOwed, leftCost] at ho hk
        refine ⟨⟨h1, ?_, h3, trivial⟩, ?_⟩
        · simp only [owed, controlOwed]
          omega
        · simp only [cost, controlCost]
          omega
  | dispatching _ _ => simp [step] at h
  | signalling => simp [step] at h
  | draining => simp [step] at h
  | reporting => simp [step] at h
  | finished _ _ => simp [step] at h

theorem step_poolNext (fs : FileSystem) (numGoroutine : Nat → Int)
    (filenames : List (List Char)) (s s' : Run) (k : Nat)
    (h : step fs numGoroutine filenames s (Action.poolNext k) = some s')
    (hc : Consistent fs filenames s) :
    Consistent fs filenames s' ∧ cost s' < cost s := by
  obtain ⟨infoC, waiter, pool, agg, control⟩ := s
  obtain ⟨h1, h2, h3, h4⟩ := hc
  simp only [owed] at h1 h2 h3 h4
  cases hp : pool[k]? with
  | none => simp [step, hp] at h
  | some scan =>
    have hne : pool ≠ [] := by
      intro e
      subst e
      simp at hp
    have hctl : ∃ i rest, control = Control.dispatching i rest ∨
        ∃ sc, control = Control.scanning sc i rest := by
      cases control with
      | dispatching i rest => exact ⟨i, rest, Or.inl rfl⟩
      | scanning sc i rest => exact ⟨i, rest, Or.inr ⟨sc, rfl⟩⟩
      | signalling => exact absurd h4 hne
      | draining => exact absurd h4 hne
      | reporting => exact absurd h4.1 hne
      | finished _ _ => exact absurd h4.1 hne
    cases hs : scanStep fs infoC scan with
    | none => simp [step, hp, hs] at h
    | some r =>
      obtain ⟨c, left⟩ := r
      have ho := scanStep_owed fs infoC c scan left hs
      have hk := scanStep_cost fs infoC c scan left hs
      cases left with
      | none =>
        simp [step, hp, hs] at h
        subst h
        obtain ⟨e1, e2⟩ := pool_eraseIdx (scanOwed fs) pool k scan hp
        obtain ⟨e3, _⟩ := pool_eraseIdx scanCost pool k scan hp
        simp only [leftOwed, leftCost] at ho hk
        refine ⟨⟨?_, ?_, h3, ?_⟩, ?_⟩
        · simp only
          omega
        · simp only [owed]
          omega
        · obtain ⟨i, rest, hd | ⟨sc, hd⟩⟩ := hctl <;> simp [hd]
        · simp only [cost]
          omega
      | some scan' =>
        simp [step, hp, hs] at h
        subst h
        have e1 := pool_set (scanOwed fs) pool k scan scan' hp
        have e3 := pool_set scanCost pool k scan scan' hp
        simp only [leftOwed, leftCost] at ho hk
        refine ⟨⟨?_, ?_, h3, ?_⟩, ?_⟩
        · simp [h1]
        · simp only [owed]
          omega
        · obtain ⟨i, rest, hd | ⟨sc, hd⟩⟩ := hctl <;> simp [hd]
        · simp only [cost]
          omega

theorem showInfos_totalFiles (infos : List statisticInfo) (agg : statisticResult × List Row) :
    (showInfos infos agg).1.totalFiles = agg.1.totalFiles + infos.length ∧
      (showInfos infos agg).2.length = agg.2.length + infos.length := by
  rw [showInfos_eq]
  simp

theorem step_receive (fs : FileSystem) (numGoroutine : Nat → Int)
    (filenames : List (List Char)) (s s' : Run)
    (h : step fs numGoroutine filenames s Action.receive = some s')
    (hc : Consistent fs filenames s) :
    Consistent fs filenames s' ∧ cost s' < cost s := by
  obtain ⟨infoC, waiter, pool, agg, control⟩ := s
  obtain ⟨h1, h2, h3, h4⟩ := hc
  simp only [owed] at h1 h2 h3 h4
  by_cases hl : inLoop control = true
  · cases infoC with
    | none => simp [step, hl] at h
    | some infos =>
      simp [step, hl] at h
      subst h
      obtain ⟨t1, t2⟩ := showInfos_totalFiles infos agg
      refine ⟨⟨h1, ?_, ?_, ?_⟩, ?_⟩
      · simp only [owed, t1, Option.getD_none, List.length_nil]
        simp only [Option.getD_some] at h2
        omega
      · simp only [t1, t2]
        omega
      · cases control with
        | dispatching _ _ => trivial
        | scanning _ _ _ => trivial
        | signalling => exact h4
        | draining => simp [inLoop] at hl
        | reporting => simp [inLoop] at hl
        | finished _ _ => simp [inLoop] at hl
      · simp [cost]
  · simp [step, hl] at h

theorem step_control (fs : FileSystem) (numGoroutine : Nat → Int)
    (filenames : List (List Char)) (s s' : Run) (a : Action)
    (ha : a = Action.waitReturn ∨ a = Action.signalDone ∨ a = Action.drain ∨
      a = Action.report)
    (h : step fs numGoroutine filenames s a = some s')
    (hc : Consistent fs filenames s) :
    Consistent fs filenames s' ∧ cost s' < cost s := by
  obtain ⟨infoC, waiter, pool, agg, control⟩ := s
  obtain ⟨h1, h2, h3, h4⟩ := hc
  simp only [owed] at h1 h2 h3 h4
  rcases ha with rfl | rfl | rfl | rfl
  · cases control with
    | dispatching i rest =>
      cases rest with
      | cons _ _ => simp [step] at h
      | nil =>
        by_cases hw : waiter = 0
        · subst hw
          simp [step] at h
          subst h
          have hp : pool = [] := by
            have : pool.length = 0 := by omega
            exact List.length_eq_zero.mp this
          have e : openedBy fs [] = 0 := rfl
          simp only [controlOwed, e] at h2
          refine ⟨⟨h1, ?_, h3, hp⟩, ?_⟩
          · simp only [owed, controlOwed]
            omega
          · simp [cost, controlCost]
        · simp [step, hw] at h
    | scanning _ _ _ => simp [step] at h
    | signalling => simp [step] at h
    | draining => simp [step] at h
    | reporting => simp [step] at h
    | finished _ _ => simp [step] at h
  · cases control with
    | signalling =>
      simp [step] at h
      subst h
      refine ⟨⟨h1, ?_, h3, h4⟩, ?_⟩
      · simpa [owed, controlOwed] using h2
      · simp [cost, controlCost]
    | dispatching _ _ => simp [step] at h
    | scanning _ _ _ => simp [step] at h
    | draining => simp [step] at h
    | reporting => simp [step] at h
    | finished _ _ => simp [step] at h
  · cases control with
    | draining =>
      cases infoC with
      | none =>
        simp [step] at h
        subst h
        refine ⟨⟨h1, ?_, h3, h4, rfl⟩, ?_⟩
        · simpa [owed, controlOwed] using h2
        · simp [cost, controlCost]
      | some infos =>
        simp [step] at h
        subst h
        obtain ⟨t1, t2⟩ := showInfos_totalFiles infos agg
        refine ⟨⟨h1, ?_, ?_, h4, rfl⟩, ?_⟩
        · simp only [owed, controlOwed, t1, Option.getD_none, List.length_nil]
          simp only [controlOwed, Option.getD_some] at h2
          omega
        · simp only [t1, t2]
          omega
        · simp [cost, controlCost]
          omega
    | dispatching _ _ => simp [step] at h
    | scanning _ _ _ => simp [step] at h
    | signalling => simp [step] at h
    | reporting => simp [step] at h
    | finished _ _ => simp [step] at h
  · cases control with
    | reporting =>
      simp [step] at h
      subst h
      refine ⟨⟨h1, ?_, h3, h4.1, h4.2, rfl, rfl⟩, ?_⟩
      · simpa [owed, controlOwed] using h2
      · simp [cost, controlCost]
    | dispatching _ _ => simp [step] at h
    | scanning _ _ _ => simp [step] at h
    | signalling => simp [step] at h
    | draining => simp [step] at h
    | finished _ _ => simp [step] at h

/-- Every step keeps the state consistent and uses up some of the cost. -/
theorem step_spec (fs : FileSystem) (numGoroutine : Nat → Int)
    (filenames : List (List Char)) (s s' : Run) (a : Action)
    (h : step fs numGoroutine filenames s a = some s')
    (hc : Consistent fs filenames s) :
    Consistent fs filenames s' ∧ cost s' < cost s := by
  cases a with
  | dispatch => exact step_dispatch fs numGoroutine filenames s s' h hc
  | scanNext => exact step_scanNext fs numGoroutine filenames s s' h hc
  | poolNext k => exact step_poolNext fs numGoroutine filenames s s' k h hc
  | receive => exact step_receive fs numGoroutine filenames s s' h hc
  | waitReturn => exact step_control fs numGoroutine filenames s s' _ (by simp) h hc
  | signalDone => exact step_control fs numGoroutine filenames s s' _ (by simp) h hc
  | drain => exact step_control fs numGoroutine filenames s s' _ (by simp) h hc
  | report => exact step_control fs numGoroutine filenames s s' _ (by simp) h hc

/-- Every run keeps the state consistent, and its length is bounded by the
cost of the state it starts from. -/
theorem exec_spec (fs : FileSystem) (numGoroutine : Nat → Int)
    (filenames : List (List Char)) (schedule : List Action) (s s' : Run)
    (h : exec fs numGoroutine filenames s schedule = some s')
    (hc : Consistent fs filenames s) :
    Consistent fs filenames s' ∧ cost s' + schedule.length ≤ cost s := by
  induction schedule generalizing s with
  | nil =>
    simp only [exec, Option.some.injEq] at h
    subst h
    exact ⟨hc, by simp⟩
  | cons a rest ih =>
    cases hs : step fs numGoroutine filenames s a with
    | none => simp [exec, hs] at h
    | some m =>
      simp only [exec, hs] at h
      obtain ⟨hm, hcost⟩ := step_spec fs numGoroutine filenames s m a hs hc
      obtain ⟨h1, h2⟩ := ih m h hm
      refine ⟨h1, ?_⟩
      simp only [List.length_cons]
      omega

theorem exec_cons (fs : FileSystem) (numGoroutine : Nat → Int)
    (filenames : List (List Char)) (s m : Run) (a : Action) (rest : List Action)
    (h : step fs numGoroutine filenames s a = some m) :
    exec fs numGoroutine filenames s (a :: rest) = exec fs numGoroutine filenames m rest := by
  simp [exec, h]

theorem initial_consistent (fs : FileSystem) (filenames : List (List Char)) :
    Consistent fs filenames (initial filenames) := by
  simp [Consistent, initial, owed, controlOwed]

theorem finished_count (fs : FileSystem) (filenames : List (List Char)) (s : Run)
    (requested : Nat) (count : Int) (hc : Consistent fs filenames s)
    (hf : s.control = Control.finished requested count) :
    requested = filenames.length ∧ count = openedBy fs filenames ∧
      s.agg.2.length = openedBy fs filenames := by
  obtain ⟨infoC, waiter, pool, agg, control⟩ := s
  simp only at hf
  subst hf
  obtain ⟨_, h2, h3, hp, hi, hr, hcount⟩ := hc
  simp only at hp hi h3 hcount h2
  subst hp hi
  simp only [owed, controlOwed, Option.getD_none, List.length_nil, List.map_nil, List.sum_nil,
    Nat.cast_zero, add_zero] at h2
  refine ⟨hr, ?_, ?_⟩
  · rw [hcount]
    exact h2
  · have : (agg.2.length : Int) = openedBy fs filenames := by rw [h3]; exact h2
    exact_mod_cast this

/-- In a consistent state that is not the final one some operation can be
done, as long as every scan whose file opens reaches the end of its reads. -/
theorem step_enabled (fs : FileSystem) (numGoroutine : Nat → Int)
    (filenames : List (List Char)) (s : Run)
    (hret : ∀ filename reads, fs filename = some reads →
      ∃ info, scanLoop ⟨filename, 0, 0, 0, 0⟩ reads = some info)
    (hc : Consistent fs filenames s)
    (hnf : ∀ requested count, s.control ≠ Control.finished requested count) :
    ∃ a m, step fs numGoroutine filenames s a = some m := by
  obtain ⟨infoC, waiter, pool, agg, control⟩ := s
  obtain ⟨h1, _, _, _⟩ := hc
  simp only at h1 hnf
  cases control with
  | dispatching i rest =>
    cases rest with
    | cons filename rest =>
      refine ⟨Action.dispatch, ?_⟩
      by_cases hg : numGoroutine i > workers
      · simp [step, dispatch, hg]
      · simp [step, dispatch, hg]
    | nil =>
      cases pool with
      | nil =>
        refine ⟨Action.waitReturn, ?_⟩
        have hw : waiter = 0 := by simpa using h1
        simp [step, hw]
      | cons scan others =>
        refine ⟨Action.poolNext 0, ?_⟩
        obtain ⟨⟨c, left⟩, hs⟩ := scanStep_enabled fs infoC scan hret
        cases left with
        | none => simp [step, hs]
        | some scan' => simp [step, hs]
  | scanning scan i rest =>
    refine ⟨Action.scanNext, ?_⟩
    obtain ⟨⟨c, left⟩, hs⟩ := scanStep_enabled fs infoC scan hret
    cases left with
    | none => simp [step, hs]
    | some scan' => simp [step, hs]
  | signalling => exact ⟨Action.signalDone, by simp [step]⟩
  | draining =>
    refine ⟨Action.drain, ?_⟩
    cases infoC with
    | none => simp [step]
    | some infos => simp [step]
  | reporting => exact ⟨Action.report, by simp [step]⟩
  | finished requested count => exact absurd rfl (hnf requested count)

/-- From every consistent state the run can be brought to its end, where the
dispatcher prints the number of paths and the number of paths that opened. -/
theorem can_finish (fs : FileSystem) (numGoroutine : Nat → Int)
    (filenames : List (List Char))
    (hret : ∀ filename reads, fs filename = some reads →
      ∃ info, scanLoop ⟨filename, 0, 0, 0, 0⟩ reads = some info)
    (n : Nat) (s : Run) (hn : cost s ≤ n) (hc : Consistent fs filenames s) :
    ∃ more s', exec fs numGoroutine filenames s more = some s' ∧
      s'.control = Control.finished filenames.length (openedBy fs filenames) := by
  induction n generalizing s with
  | zero =>
    by_cases hf : ∃ requested count, s.control = Control.finished requested count
    · obtain ⟨requested, count, hf⟩ := hf
      obtain ⟨e1, e2, _⟩ := finished_count fs filenames s requested count hc hf
      exact ⟨[], s, rfl, by rw [hf, e1, e2]⟩
    · obtain ⟨a, m, hs⟩ := step_enabled fs numGoroutine filenames s hret hc
        (fun r c e => hf ⟨r, c, e⟩)
      have := (step_spec fs numGoroutine filenames s m a hs hc).2
      omega
  | succ n ih =>
    by_cases hf : ∃ requested count, s.control = Control.finished requested count
    · obtain ⟨requested, count, hf⟩ := hf
      obtain ⟨e1, e2, _⟩ := finished_count fs filenames s requested count hc hf
      exact ⟨[], s, rfl, by rw [hf, e1, e2]⟩
    · obtain ⟨a, m, hs⟩ := step_enabled fs numGoroutine filenames s hret hc
        (fun r c e => hf ⟨r, c, e⟩)
      obtain ⟨hm, hcost⟩ := step_spec fs numGoroutine filenames s m a hs hc
      obtain ⟨more, s', hrun, hend⟩ := ih m (by omega) hm
      exact ⟨a :: more, s', by rw [exec_cons _ _ _ _ _ _ _ hs]; exact hrun, hend⟩

/-- Run on its own, a scan does to the channel what `statisticFile` does. -/
theorem scanAlone_eq (fs : FileSystem) (filename : List Char) (infoC : popChannel)
    (done : Bool) :
    scanAlone fs 4 infoC (Scan.start filename) =
      (statisticFile fs filename infoC done).map (·.infoC) := by
  cases hfs : fs filename with
  | none => simp [scanAlone, scanStep, statisticFile, hfs]
  | some reads =>
    cases hs : scanLoop ⟨filename, 0, 0, 0, 0⟩ reads with
    | none => simp [scanAlone, scanStep, statisticFile, hfs, hs]
    | some info =>
      cases infoC with
      | none => simp [scanAlone, scanStep, statisticFile, hfs, hs, stack_eq]
      | some old => simp [scanAlone, scanStep, statisticFile, hfs, hs, stack_eq]

theorem diskOf_returns (files : List Char → Option (List Char)) (filename : List Char)
    (reads : List ReadResult) (h : diskOf files filename = some reads) :
    ∃ info, scanLoop ⟨filename, 0, 0, 0, 0⟩ reads = some info := by
  unfold diskOf at h
  cases hf : files filename with
  | none => simp [hf] at h
  | some content =>
    simp only [hf, Option.map_some', Option.some.injEq] at h
    subst h
    exact fileTally_some filename content

theorem statisticFile_opened (fs : FileSystem) (filename : List Char) (infoC : popChannel)
    (done : Bool) (reads : List ReadResult) (info : statisticInfo)
    (hopen : fs filename = some reads)
    (hscan : scanLoop ⟨filename, 0, 0, 0, 0⟩ reads = some info) :
    statisticFile fs filename infoC done =
      some ⟨some (infoC.getD [] ++ [info]), [[info]], if done then 1 else 0⟩ := by
  simp [statisticFile, hopen, hscan, stack_eq]

/-! ## The claims -/

/-- C1: the loop body of `statisticFile` classifies a line by the three-way rule.
With `t` the line after `TrimSpace`, `commentR` matches `t` exactly when `t`
starts with `//`, starts with `/*` or ends with `*/`; the line is then counted as
comment, otherwise as space when `t` is empty, otherwise as regular. The total
and exactly one of the three class counters grow by one. The four example
lines are classified as comment, space, regular and comment. -/
theorem line_classification (info : statisticInfo) (line : List Char) :
    (MatchString commentR (TrimSpace line) = true ↔
      ("//".toList <+: TrimSpace line ∨ "/*".toList <+: TrimSpace line ∨
        "*/".toList <:+ TrimSpace line)) ∧
    countLine info line =
      (match classify (TrimSpace line) with
       | .Comment => { info with total := info.total + 1, comment := info.comment + 1 }
       | .Blank => { info with total := info.total + 1, space := info.space + 1 }
       | .Regular => { info with total := info.total + 1, regular := info.regular + 1 }) ∧
    (countLine info line).total = info.total + 1 ∧
    (countLine info line).space + (countLine info line).comment + (countLine info line).regular =
      info.space + info.comment + info.regular + 1 ∧
    countLine ⟨[], 0, 0, 0, 0⟩ "// comment\n".toList = ⟨[], 1, 0, 1, 0⟩ ∧
    countLine ⟨[], 0, 0, 0, 0⟩ "\n".toList = ⟨[], 1, 1, 0, 0⟩ ∧
    countLine ⟨[], 0, 0, 0, 0⟩ "code();\n".toList = ⟨[], 1, 0, 0, 1⟩ ∧
    countLine ⟨[], 0, 0, 0, 0⟩ "*/\n".toList = ⟨[], 1, 0, 1, 0⟩ := by
  refine ⟨commentR_matchString (TrimSpace line), countLine_classify info line, ?_, ?_,
    by decide, by decide, by decide, by decide⟩
  · rw [countLine_eq]
  · obtain ⟨h, _⟩ := classOf_sum line
    rw [countLine_eq]
    simp only
    omega

/-- C2, the claim as stated fails: the content `a\nb` has two lines as the
specification counts them, and `statisticFile` builds a tally with total 1. -/
theorem unterminated_last_line_not_counted :
    specLines "a\nb".toList = ["a".toList, "b".toList] ∧
    fileTally "f".toList "a\nb".toList = some ⟨"f".toList, 1, 0, 0, 1⟩ ∧
    ¬ ((fileTally "f".toList "a\nb".toList).map (·.total) =
        some ((specLines "a\nb".toList).length : Int)) := by
  decide

/-- C2, amended: for every file content `statisticFile` builds a tally whose
total is the number of newline-terminated lines, which is the number of newline
characters of the content; a last line without a terminating newline is read
together with end-of-stream and is not counted. For a content that is empty or
ends with a newline the total is the number of lines. Every counted line is
counted in one of the three class counters. -/
theorem total_counts_terminated_lines (filename content : List Char) :
    ∃ info ls tail, fileTally filename content = some info ∧
      content = joinLines ls tail ∧ (∀ l ∈ ls, '\n' ∉ l) ∧ '\n' ∉ tail ∧
      specLines content = ls ++ (if tail = [] then [] else [tail]) ∧
      info.total = ls.length ∧ info.total = content.count '\n' ∧
      info.total = info.space + info.comment + info.regular ∧
      (content = [] ∨ content.getLast? = some '\n' →
        info.total = (specLines content).length) := by
  obtain ⟨ls, tail, hls, htail, rfl, hend⟩ := exists_joinLines content
  have ht := fileTally_joinLines filename ls tail hls htail
  have hinv := tallyInv_scanLoop _ _ _ (tallyInv_zero filename) ht
  have hspec := specLines_joinLines ls tail hls htail
  refine ⟨_, ls, tail, ht, rfl, hls, htail, hspec, ?_, ?_, hinv.1, ?_⟩
  · simp [tallyOf]
  · rw [count_newline_joinLines ls tail hls htail]; simp [tallyOf]
  · intro h
    rw [hspec, hend h]
    simp [tallyOf]

/-- C3: in every run of the read loop of `statisticFile`, whatever the reads
return, the tally satisfies `total = space + comment + regular` with no
negative counter at the head of every iteration and when the loop is left;
every tally handed to `infoC.stack` satisfies it, and for every file content
the loop is left with such a tally. -/
theorem tally_invariant (fs : FileSystem) (filename : List Char) (infoC : popChannel)
    (done : Bool) (reads : List ReadResult) :
    (∀ s ∈ scanStates ⟨filename, 0, 0, 0, 0⟩ reads, tallyInv s) ∧
    (∀ info, scanLoop ⟨filename, 0, 0, 0, 0⟩ reads = some info → tallyInv info) ∧
    (∀ eff, statisticFile fs filename infoC done = some eff →
      ∀ batch ∈ eff.stacked, ∀ info ∈ batch, tallyInv info) ∧
    (∀ content, ∃ info, fileTally filename content = some info ∧ tallyInv info) := by
  refine ⟨tallyInv_scanStates reads _ (tallyInv_zero filename),
    fun info h => tallyInv_scanLoop reads _ info (tallyInv_zero filename) h, ?_, ?_⟩
  · intro eff heff batch hb info hi
    unfold statisticFile at heff
    cases hfs : fs filename with
    | none =>
      simp only [hfs, Option.some.injEq] at heff
      subst heff
      simp at hb
    | some rs =>
      simp only [hfs] at heff
      cases hs : scanLoop ⟨filename, 0, 0, 0, 0⟩ rs with
      | none => simp [hs] at heff
      | some out =>
        simp only [hs, Option.some.injEq] at heff
        subst heff
        simp only [List.mem_singleton] at hb
        subst hb
        simp only [List.mem_singleton] at hi
        subst hi
        exact tallyInv_scanLoop rs _ _ (tallyInv_zero filename) hs
  · intro content
    obtain ⟨info, h⟩ := fileTally_some filename content
    exact ⟨info, h, tallyInv_scanLoop _ _ _ (tallyInv_zero filename) h⟩

/-- C4, the claim as stated fails: an invocation of `statisticFile` on a path
that does not open returns without a call of `infoC.stack`, and a run on three
files that open and one path that does not ends with the final line
`total files: 4<->3` and three rows, none for the path that did not open. -/
theorem failed_open_deposits_nothing :
    statisticFile (diskOf threeFiles) "missing".toList none false = some ⟨none, [], 0⟩ ∧
    (exec (diskOf threeFiles) (fun _ => 3) fourPaths (initial fourPaths) contendedRun).map
      (fun s => (s.control, s.agg.2.map (·.filename))) =
        some (Control.finished 4 3, ["c.go".toList, "a.go".toList, "b.go".toList]) := by
  decide

/-- C4, amended: an invocation of `statisticFile` whose file opens calls
`infoC.stack` exactly once, with the one tally of the file, once its reads
reach end-of-stream, which they do for every file content; an invocation whose
open fails returns without a deposit and leaves the channel as it was; an
empty file deposits the all-zero tally. Consequently, in every run of
`statisticFiles`, however the scans, the aggregator and the dispatcher
interleave and whatever task counts are sampled, the count the aggregator
reports at the end and the number of rows it has printed are the number of
input paths that could be opened, next to the number of input paths. Every run
has at most `5 * n + 4` steps, and from each of its states it can be brought to
that end as long as every scan reaches the end of its reads. The steps of a
scan in such a run, taken on their own, are those of `statisticFile`. -/
theorem deposit_only_when_opened (fs : FileSystem) (numGoroutine : Nat → Int)
    (filenames : List (List Char)) (schedule : List Action) (s : Run)
    (hrun : exec fs numGoroutine filenames (initial filenames) schedule = some s) :
    (∀ filename infoC done,
      (fs filename = none →
        statisticFile fs filename infoC done = some ⟨infoC, [], if done then 1 else 0⟩) ∧
      (∀ reads info, fs filename = some reads →
        scanLoop ⟨filename, 0, 0, 0, 0⟩ reads = some info →
        statisticFile fs filename infoC done =
          some ⟨some (infoC.getD [] ++ [info]), [[info]], if done then 1 else 0⟩) ∧
      (∀ content, ∃ info, scanLoop ⟨filename, 0, 0, 0, 0⟩ (fileReads content) = some info) ∧
      scanLoop ⟨filename, 0, 0, 0, 0⟩ (fileReads []) = some ⟨filename, 0, 0, 0, 0⟩ ∧
      scanAlone fs 4 infoC (Scan.start filename) =
        (statisticFile fs filename infoC done).map (·.infoC)) ∧
    (∀ requested count, s.control = Control.finished requested count →
      requested = filenames.length ∧ count = openedBy fs filenames ∧
        s.agg.2.length = openedBy fs filenames) ∧
    ((∀ filename reads, fs filename = some reads →
        ∃ info, scanLoop ⟨filename, 0, 0, 0, 0⟩ reads = some info) →
      ∃ more s', exec fs numGoroutine filenames s more = some s' ∧
        s'.control = Control.finished filenames.length (openedBy fs filenames)) ∧
    schedule.length ≤ 5 * filenames.length + 4 := by
  obtain ⟨hc, hlen⟩ := exec_spec fs numGoroutine filenames schedule _ s hrun
    (initial_consistent fs filenames)
  refine ⟨?_, ?_, ?_, ?_⟩
  · intro filename infoC done
    refine ⟨?_, ?_, fun content => fileTally_some filename content, rfl,
      scanAlone_eq fs filename infoC done⟩
    · intro hopen
      simp [statisticFile, hopen]
    · intro reads info hopen hscan
      exact statisticFile_opened fs filename infoC done reads info hopen hscan
  · intro requested count hf
    exact finished_count fs filenames s requested count hc hf
  · intro hret
    exact can_finish fs numGoroutine filenames hret (cost s) s (le_refl _) hc
  · have : cost (initial filenames) = 5 * filenames.length + 4 := by
      simp [cost, initial, controlCost]
    omega

/-- C4, witness: the run on three files that open and one path that does
not, stopped while the scans of `a.go` and `b.go` meet in `infoC.stack`. -/
theorem deposit_only_when_opened_witness :
    ∃ s more s',
      exec (diskOf threeFiles) (fun _ => 3) fourPaths (initial fourPaths)
        (contendedRun.take 6) = some s ∧
      exec (diskOf threeFiles) (fun _ => 3) fourPaths s more = some s' ∧
      s'.control = Control.finished 4 3 := by
  cases h : exec (diskOf threeFiles) (fun _ => 3) fourPaths (initial fourPaths)
      (contendedRun.take 6) with
  | none => exact absurd h (by decide)
  | some s =>
    obtain ⟨more, s', h1, h2⟩ :=
      (deposit_only_when_opened (diskOf threeFiles) (fun _ => 3) fourPaths
        (contendedRun.take 6) s h).2.2.1 (diskOf_returns threeFiles)
    have hop : openedBy (diskOf threeFiles) fourPaths = 3 := by decide
    exact ⟨s, more, s', rfl, h1, by rw [h2, hop]; rfl⟩

/-- C5: starting from the zero result, after `showInfos` has processed any
sequence of batches, each of the four sums is the sum of that field over the
rows printed, which are the rows of all tallies processed in order, and
`totalFiles` is their number; the result is the same for every other sequence
of batches that holds the same tallies in any order and any split. -/
theorem aggregation_exact_sum (batches : List (List statisticInfo)) :
    let st := batches.foldl (fun st infos => showInfos infos st) (⟨0, 0, 0, 0, 0⟩, [])
    st.2 = batches.flatten.map rowOf ∧
    st.1.sumRegular = (st.2.map (·.regular)).sum ∧
    st.1.sumSpace = (st.2.map (·.space)).sum ∧
    st.1.sumComment = (st.2.map (·.comment)).sum ∧
    st.1.sumTotal = (st.2.map (·.total)).sum ∧
    st.1.sumRegular = (batches.flatten.map (·.regular)).sum ∧
    st.1.sumSpace = (batches.flatten.map (·.space)).sum ∧
    st.1.sumComment = (batches.flatten.map (·.comment)).sum ∧
    st.1.sumTotal = (batches.flatten.map (·.total)).sum ∧
    st.1.totalFiles = batches.flatten.length ∧
    ∀ other : List (List statisticInfo), other.flatten.Perm batches.flatten →
      (other.foldl (fun st infos => showInfos infos st) (⟨0, 0, 0, 0, 0⟩, [])).1 = st.1 := by
  intro st
  have hst : st = showInfos batches.flatten (⟨0, 0, 0, 0, 0⟩, []) := showInfos_batches _ _
  rw [hst, showInfos_eq]
  refine ⟨by simp, ?_, ?_, ?_, ?_, by simp, by simp, by simp, by simp, by simp, ?_⟩
  · simp [rowOf, Function.comp_def]
  · simp [rowOf, Function.comp_def]
  · simp [rowOf, Function.comp_def]
  · simp [rowOf, Function.comp_def]
  · intro other hp
    rw [showInfos_batches, showInfos_eq]
    simp only [statisticResult.mk.injEq]
    refine ⟨?_, ?_, ?_, ?_, ?_⟩
    · rw [hp.length_eq]
    · rw [(hp.map _).sum_eq]
    · rw [(hp.map _).sum_eq]
    · rw [(hp.map _).sum_eq]
    · rw [(hp.map _).sum_eq]

/-- C6: `popChannel.stack`, run without interference on a channel that is
empty or holds a batch `B`, ends with the channel holding the deposited batch
`A` when it was empty and `B ++ A` when it held `B`; every tally occurs
afterwards as often as in `B` and `A` together. -/
theorem stack_merges (A : List statisticInfo) :
    stack none A = some A ∧
    (∀ B, stack (some B) A = some (B ++ A)) ∧
    (∀ B x, ((stack (some B) A).getD []).count x = B.count x + A.count x) ∧
    (∀ x, ((stack none A).getD []).count x = A.count x) := by
  refine ⟨stack_none A, fun B => stack_some B A, ?_, ?_⟩
  · intro B x
    rw [stack_some]
    simp
  · intro x
    rw [stack_none]
    simp

/-- C7, the claim as stated fails: with 1000 live tasks, at the threshold, the
scan is not run synchronously; it is spawned. -/
theorem throttle_at_threshold_spawns :
    (1000 : Int) ≥ workers ∧ dispatch 1000 0 = (Mode.spawned, 1) ∧
    ¬ ((dispatch 1000 0).1 = Mode.synchronous ↔ (1000 : Int) ≥ workers) := by
  decide

/-- C7, amended: with `g` the sampled task count and threshold 1000, the scan
is run synchronously exactly when `g` is above the threshold (`g > 1000`), and
then the completion counter is left as it is; otherwise the scan is spawned and
the completion counter is incremented by one before the spawn. -/
theorem throttle_above_threshold (g waiter : Int) :
    workers = 1000 ∧
    ((dispatch g waiter).1 = Mode.synchronous ↔ g > 1000) ∧
    ((dispatch g waiter).1 = Mode.spawned ↔ g ≤ 1000) ∧
    (g > 1000 → dispatch g waiter = (Mode.synchronous, waiter)) ∧
    (g ≤ 1000 → dispatch g waiter = (Mode.spawned, waiter + 1)) := by
  unfold dispatch workers
  by_cases h : g > 1000
  · simp [h]
  · simp [h]
    omega

/-- C8, the claim as stated fails: when the second read returns an error that
is not end-of-stream, the scan the specification describes stops with total 1,
while `statisticFile` counts the data of the failing read as a line, reads on
and deposits a tally with total 3; and when every read fails, the loop is
still reading after the reads given and nothing is deposited. -/
theorem read_error_does_not_stop :
    specScanLoop ⟨"f".toList, 0, 0, 0, 0⟩ failingReads = some ⟨"f".toList, 1, 0, 0, 1⟩ ∧
    scanLoop ⟨"f".toList, 0, 0, 0, 0⟩ failingReads = some ⟨"f".toList, 3, 0, 0, 3⟩ ∧
    scanLoop ⟨"f".toList, 0, 0, 0, 0⟩ failingReads ≠
      specScanLoop ⟨"f".toList, 0, 0, 0, 0⟩ failingReads ∧
    statisticFile (fun _ => some (List.replicate 4 ([], some ReadError.other)))
      "f".toList none false = none := by
  decide

/-- C8, amended: a read that returns an error other than end-of-stream is
logged and the scan goes on: the data returned by every read before the first
end-of-stream, failing or not, is counted and classified as one line, and the
data returned with end-of-stream is not. When a read returns end-of-stream the
loop ends and the tally built so far is deposited exactly once. -/
theorem read_error_continues (fs : FileSystem) (filename : List Char) (infoC : popChannel)
    (done : Bool) (pre : List ReadResult) (l : List Char) (post : List ReadResult)
    (hopen : fs filename = some (pre ++ (l, some ReadError.EOF) :: post))
    (hpre : ∀ r ∈ pre, r.2 ≠ some ReadError.EOF) :
    ∃ info, info = (pre.map (·.1)).foldl countLine ⟨filename, 0, 0, 0, 0⟩ ∧
      info.total = pre.length ∧
      scanLoop ⟨filename, 0, 0, 0, 0⟩ (pre ++ (l, some ReadError.EOF) :: post) = some info ∧
      statisticFile fs filename infoC done =
        some ⟨some (infoC.getD [] ++ [info]), [[info]], if done then 1 else 0⟩ := by
  have hs := scanLoop_eof pre l post ⟨filename, 0, 0, 0, 0⟩ hpre
  refine ⟨_, rfl, ?_, hs, ?_⟩
  · rw [foldl_countLine]
    simp [tallyOf]
  · simp [statisticFile, hopen, hs, stack_eq]

/-- C8, witness: the reads `failingReads`, whose second read fails. -/
theorem read_error_continues_witness :
    statisticFile (fun _ => some failingReads) "f".toList none true =
      some ⟨some [⟨"f".toList, 3, 0, 0, 3⟩], [[⟨"f".toList, 3, 0, 0, 3⟩]], 1⟩ := by
  obtain ⟨info, h1, _, _, h4⟩ := read_error_continues (fun _ => some failingReads)
    "f".toList none true
    [("a\n".toList, none), ("b".toList, some .other), ("c\n".toList, none)] [] [] rfl
    (by decide)
  have hinfo : info = ⟨"f".toList, 3, 0, 0, 3⟩ := by rw [h1]; decide
  rw [h4, hinfo]
  rfl

/-- C9, the claim as stated fails: the list file `a.txt\nb.txt` has the two
lines `a.txt` and `b.txt`, and `getFilesFromList` returns `a.txt` only. -/
theorem list_drops_unterminated_line :
    (specLines "a.txt\nb.txt".toList).map TrimSpace = ["a.txt".toList, "b.txt".toList] ∧
    getFilesFromList (diskOf listDisk) "list".toList = some ["a.txt".toList] ∧
    getFilesFromList (diskOf listDisk) "list".toList ≠
      some ((specLines "a.txt\nb.txt".toList).map TrimSpace) := by
  decide

/-- C9, amended: `getFilesFromList` returns one path per newline-terminated
line of the list file, in file order, each with surrounding white space
trimmed, with blank lines passed on as empty paths; a last line without a
terminating newline is dropped. For a list file that is empty or ends with a
newline these are all its lines; the content `a.txt\n\nb.txt\n` gives
`a.txt`, the empty path and `b.txt`. -/
theorem list_terminated_lines (files : List Char → Option (List Char))
    (listName : List Char) (ls : List (List Char)) (tail : List Char)
    (hopen : files listName = some (joinLines ls tail))
    (hls : ∀ l ∈ ls, '\n' ∉ l) (htail : '\n' ∉ tail) :
    getFilesFromList (diskOf files) listName = some (ls.map TrimSpace) ∧
    specLines (joinLines ls tail) = ls ++ (if tail = [] then [] else [tail]) ∧
    (tail = [] → getFilesFromList (diskOf files) listName =
      some ((specLines (joinLines ls tail)).map TrimSpace)) ∧
    getFilesFromList (fun _ => some (fileReads "a.txt\n\nb.txt\n".toList)) [] =
      some ["a.txt".toList, [], "b.txt".toList] := by
  have hspec := specLines_joinLines ls tail hls htail
  have hget : getFilesFromList (diskOf files) listName = some (ls.map TrimSpace) := by
    simp only [getFilesFromList, diskOf, hopen, Option.map_some']
    rw [fileReads_joinLines ls tail hls htail, listLoop_eof _ _ _ _ (by simp)]
    simp [Function.comp_def, trimSpace_newline]
  refine ⟨hget, hspec, ?_, by decide⟩
  intro ht
  rw [hget, hspec, ht]
  simp

/-- C9, witness: the list file `a.txt\nb.txt`. -/
theorem list_terminated_lines_witness :
    getFilesFromList (diskOf listDisk) "list".toList = some (["a.txt".toList].map TrimSpace) ∧
    specLines (joinLines ["a.txt".toList] "b.txt".toList) =
      ["a.txt".toList] ++ (if "b.txt".toList = [] then [] else ["b.txt".toList]) :=
  have h := list_terminated_lines listDisk "list".toList ["a.txt".toList] "b.txt".toList
    (by decide) (by decide) (by decide)
  ⟨h.1, h.2.1⟩

/-- C10: the tally of `A ++ B`, for `A` empty or ending with a newline, is the
field-wise sum of the tallies of `A` and of `B`. So a line between `A` and `B`
whose trimmed text neither starts with `//` or `/*` nor ends with `*/` is
counted as regular when it is not empty and as space when it is, and never as
comment, whatever precedes it; `/*\nx\n*/\n` gives total 3, comment 2, space 0,
regular 1. -/
theorem tally_additive (filename A B : List Char)
    (hA : A = [] ∨ A.getLast? = some '\n') :
    ∃ a b ab, fileTally filename A = some a ∧ fileTally filename B = some b ∧
      fileTally filename (A ++ B) = some ab ∧
      ab.total = a.total + b.total ∧ ab.space = a.space + b.space ∧
      ab.comment = a.comment + b.comment ∧ ab.regular = a.regular + b.regular ∧
      (∀ line, '\n' ∉ line → classify (TrimSpace line) ≠ LineClass.Comment →
        ∃ c, fileTally filename (A ++ (line ++ '\n' :: B)) = some c ∧
          c.total = a.total + b.total + 1 ∧ c.comment = a.comment + b.comment ∧
          c.space = a.space + b.space + (if TrimSpace line = [] then 1 else 0) ∧
          c.regular = a.regular + b.regular + (if TrimSpace line = [] then 0 else 1)) ∧
      fileTally "x.c".toList "/*\nx\n*/\n".toList = some ⟨"x.c".toList, 3, 0, 2, 1⟩ := by
  obtain ⟨a, b, ab, ha, hb, hab, h1, h2, h3, h4⟩ := fileTally_append filename A B hA
  refine ⟨a, b, ab, ha, hb, hab, h1, h2, h3, h4, ?_, by decide⟩
  intro line hline hclass
  obtain ⟨a', b', c, ha', hb', hc, g1, g2, g3, g4⟩ := fileTally_insert filename A B line hA hline
  have ea : a' = a := by rw [ha] at ha'; exact (Option.some.inj ha').symm
  have eb : b' = b := by rw [hb] at hb'; exact (Option.some.inj hb').symm
  subst ea eb
  have hm : MatchString commentR (TrimSpace line) = false := by
    have := mt (classify_comment_iff (TrimSpace line)).mpr hclass
    simpa using this
  refine ⟨c, hc, g1, ?_, ?_, ?_⟩
  · rw [g3]; simp [commentOf, hm]
  · rw [g2]; simp [spaceOf, hm]
  · rw [g4]; simp [regularOf, hm]

/-- C10, witness: `A` is the line `/*` and `B` the lines `x` and `*/`. -/
theorem tally_additive_witness :
    ("/*\n".toList = [] ∨ "/*\n".toList.getLast? = some '\n') ∧
    ∃ a b ab, fileTally "f".toList "/*\n".toList = some a ∧
      fileTally "f".toList "x\n*/\n".toList = some b ∧
      fileTally "f".toList ("/*\n".toList ++ "x\n*/\n".toList) = some ab ∧
      ab.total = a.total + b.total ∧ ab.space = a.space + b.space ∧
      ab.comment = a.comment + b.comment ∧ ab.regular = a.regular + b.regular := by
  obtain ⟨a, b, ab, ha, hb, hab, h1, h2, h3, h4, _⟩ :=
    tally_additive "f".toList "/*\n".toList "x\n*/\n".toList (by decide)
  exact ⟨by decide, a, b, ab, ha, hb, hab, h1, h2, h3, h4⟩

end CodeStatistic
